import Mathlib

/-!
Shallow embedding of the DEFLATE/zlib decompressor in
`src/assets/zlib_inflate.rs`, together with theorems settling the
specification claims about it.

Modelling conventions:
* Rust `u8`/`u16`/`u32` values are `Nat`s; the only places where machine
  width is observable in the source (`as u16` casts, `!nlen` on `u16`,
  `u32` wrap-around on `next_code[..] += 1`) carry an explicit `% 2^w`
  or `65535 - ·`.
* A slice index out of bounds, a `usize` subtraction underflow followed by
  an out-of-range index, and `Option::unwrap` on `None` are all Rust
  panics; they are modelled by an explicit `panic` result constructor.
* The two `while` loops of the source (`HuffmanTree::decode_symbol` and
  the loop of `read_trees`) have no iteration bound in Rust; they are
  modelled with an explicit fuel parameter and a `div` result constructor
  for fuel exhaustion.  Fuel `1024` is used: `decode_symbol` visits
  strictly increasing arena indices `< 1024` (proved below), and the
  `read_trees` loop increases its count by at least 1 per iteration
  towards a target `≤ 320`, so `div` is unreachable from the actual
  entry points.
* The bounded `for _ in 0..LARGE_ITERATION_COUNT` loops of the source are
  modelled by structural recursion on that same count.
-/

set_option maxRecDepth 100000
set_option maxHeartbeats 2000000

/-- The error enum `DecompressResult` of the source. -/
inductive DecompressResult where
  | IllegalBlockFormat
  | UncompressedLengthMismatch
  | TreeError
  | IllegalSmallTree
deriving DecidableEq, Repr

/-- Result of a fallible sub-computation (`Result` in Rust), with explicit
constructors for a Rust panic and for fuel exhaustion of the embedding. -/
inductive Res (α : Type) where
  | ok : α → Res α
  | err : DecompressResult → Res α
  | panic : Res α
  | div : Res α
deriving DecidableEq, Repr

/-- Result of the top-level `decompress`/`decompress_zlib`
(`Result<Vec<u8>, DecompressResult>`). -/
inductive DRes where
  | ok : List Nat → DRes
  | err : DecompressResult → DRes
  | panic : DRes
  | div : DRes
deriving DecidableEq, Repr

/-- The struct `Decoder`: input bytes, byte cursor, bit cursor. -/
structure Decoder where
  data : List Nat
  byte : Nat
  bit : Nat
deriving DecidableEq, Repr

/-- Result of one block-decoding function (`Result<(), _>` plus the
`&mut Vec<u8>` output and `&mut Decoder` it mutates).  On `Err` the Rust
caller keeps the (unchanged so far) output vector, so `err` carries the
output at the moment of the error. -/
inductive BlockRes where
  | ok : List Nat → Decoder → BlockRes
  | err : DecompressResult → List Nat → BlockRes
  | panic : BlockRes
  | div : BlockRes
deriving DecidableEq

namespace Decoder

/-- Source `Decoder::from_bytes` -/
def fromBytes (data : List Nat) : Decoder := ⟨data, 0, 0⟩

/-- Source `Decoder::next_bit`: the next bit, least significant bit of the current
byte first; `data[byte]` panics when the cursor is past the end. -/
def nextBit (d : Decoder) : Res (Nat × Decoder) :=
  match d.data.get? d.byte with
  | none => .panic
  | some byteval =>
    let bit := (byteval >>> d.bit) &&& 1
    if d.bit + 1 ≥ 8 then .ok (bit, ⟨d.data, d.byte + 1, 0⟩)
    else .ok (bit, ⟨d.data, d.byte, d.bit + 1⟩)

/-- The loop of `Decoder::next_bits`: `o |= bit << i` for `i in 0..n`. -/
def nextBitsGo : Nat → Nat → Nat → Decoder → Res (Nat × Decoder)
  | 0, _, o, d => .ok (o, d)
  | n + 1, i, o, d =>
    match d.nextBit with
    | .ok (bit, d') => nextBitsGo n (i + 1) (o ||| (bit <<< i)) d'
    | .err e => .err e
    | .panic => .panic
    | .div => .div

/-- Source `Decoder::next_bits` -/
def nextBits (d : Decoder) (n : Nat) : Res (Nat × Decoder) :=
  nextBitsGo n 0 0 d

/-- Source `Decoder::next_byte`: byte-align (discarding unread bits), then read one
byte. -/
def nextByte (d : Decoder) : Res (Nat × Decoder) :=
  let d' : Decoder := if d.bit > 0 then ⟨d.data, d.byte + 1, 0⟩ else d
  match d'.data.get? d'.byte with
  | none => .panic
  | some b => .ok (b, ⟨d'.data, d'.byte + 1, d'.bit⟩)

/-- The loop of `Decoder::next_bytes_as_number`: `o |= byte << (8*i)`. -/
def nextBytesAsNumberGo : Nat → Nat → Nat → Decoder → Res (Nat × Decoder)
  | 0, _, o, d => .ok (o, d)
  | n + 1, i, o, d =>
    match d.nextByte with
    | .ok (b, d') => nextBytesAsNumberGo n (i + 1) (o ||| (b <<< (8 * i))) d'
    | .err e => .err e
    | .panic => .panic
    | .div => .div

/-- Source `Decoder::next_bytes_as_number` -/
def nextBytesAsNumber (d : Decoder) (n : Nat) : Res (Nat × Decoder) :=
  nextBytesAsNumberGo n 0 0 d

/-- Source `Decoder::next_bytes_as_slice`: byte-align, then return
`&data[byte..byte+n]` (panicking when the range leaves the slice). -/
def nextBytesAsSlice (d : Decoder) (n : Nat) : Res (List Nat × Decoder) :=
  let d' : Decoder := if d.bit > 0 then ⟨d.data, d.byte + 1, 0⟩ else d
  if d'.byte + n ≤ d'.data.length then
    .ok ((d'.data.drop d'.byte).take n, ⟨d'.data, d'.byte + n, d'.bit⟩)
  else .panic

end Decoder

/-- Source `TABLE_CODE_LENGTH_ORDER` -/
def TABLE_CODE_LENGTH_ORDER : List Nat :=
  [16, 17, 18, 0, 8, 7, 9, 6, 10, 5, 11, 4, 12, 3, 13, 2, 14, 1, 15]

/-- Source `TABLE_LENGTH_EXTRA_BITS` (29 entries) -/
def TABLE_LENGTH_EXTRA_BITS : List Nat :=
  [0, 0, 0, 0, 0, 0, 0, 0, 1, 1, 1, 1, 2, 2] ++
  [2, 2, 3, 3, 3, 3, 4, 4, 4, 4, 5, 5, 5, 5, 0]

/-- Source `TABLE_LENGTH_BASE` (29 entries) -/
def TABLE_LENGTH_BASE : List Nat :=
  [3, 4, 5, 6, 7, 8, 9, 10, 11, 13, 15, 17, 19, 23] ++
  [27, 31, 35, 43, 51, 59, 67, 83, 99, 115, 131, 163, 195, 227, 258]

/-- Source `TABLE_DISTANCE_EXTRA_BITS` (30 entries) -/
def TABLE_DISTANCE_EXTRA_BITS : List Nat :=
  [0, 0, 0, 0, 1, 1, 2, 2, 3, 3, 4, 4, 5, 5, 6] ++
  [6, 7, 7, 8, 8, 9, 9, 10, 10, 11, 11, 12, 12, 13, 13]

/-- Source `TABLE_DISTANCE_BASE` (30 entries) -/
def TABLE_DISTANCE_BASE : List Nat :=
  [1, 2, 3, 4, 5, 7, 9, 13, 17, 25, 33, 49, 65, 97, 129] ++
  [193, 257, 385, 513, 769, 1025, 1537, 2049, 3073, 4097, 6145, 8193, 12289, 16385, 24577]

/-- Source `LARGE_ITERATION_COUNT` -/
def LARGE_ITERATION_COUNT : Nat := 100000000

/-- Source `HuffmanNode`: optional symbol and optional arena indices of the two
children. -/
structure HuffmanNode where
  symbol : Option Nat := none
  left : Option Nat := none
  right : Option Nat := none
deriving DecidableEq, Repr

/-- Source `HuffmanTree`: fixed arena of 1024 nodes plus the next free index. -/
structure HuffmanTree where
  nodes : List HuffmanNode
  next_free_node : Nat
deriving DecidableEq, Repr

namespace HuffmanTree

/-- Source `HuffmanTree::new` -/
def new : HuffmanTree := ⟨List.replicate 1024 {}, 1⟩

/-- The loop of `HuffmanTree::insert`: walk the code most-significant bit
first (`i = n-1, …, 0`), creating missing children from the free list.
Returns the final arena and node index; `none` models the panic of an
out-of-range `nodes[current]` access.  (`1 << i` is a plain `Nat` shift;
the source's `u32` shift would panic for `i ≥ 32`, which is unreachable
from `from_bitlengths`, whose guard keeps every code length below 16.) -/
def insertLoop : Nat → HuffmanTree → Nat → Nat → Option (HuffmanTree × Nat)
  | 0, t, current, _ => some (t, current)
  | i + 1, t, current, code =>
    match t.nodes.get? current with
    | none => none
    | some node =>
      let bit := code &&& (1 <<< i)
      if bit ≠ 0 then
        match node.right with
        | some r => insertLoop i t r code
        | none =>
          insertLoop i
            ⟨t.nodes.set current { node with right := some t.next_free_node },
             t.next_free_node + 1⟩
            t.next_free_node code
      else
        match node.left with
        | some l => insertLoop i t l code
        | none =>
          insertLoop i
            ⟨t.nodes.set current { node with left := some t.next_free_node },
             t.next_free_node + 1⟩
            t.next_free_node code

/-- Source `HuffmanTree::insert`: walk/extend the path for `code` (of `n` bits),
then store `symbol` at the reached node. -/
def insert (t : HuffmanTree) (code : Nat) (n : Nat) (symbol : Nat) :
    Option HuffmanTree :=
  match insertLoop n t 0 code with
  | none => none
  | some (t', current) =>
    match t'.nodes.get? current with
    | none => none
    | some node => some ⟨t'.nodes.set current { node with symbol := some symbol },
                         t'.next_free_node⟩

end HuffmanTree

/-- The `counts` filling loop of `from_bitlengths`:
`counts[i] = |{j ∈ bitlengths | j == i && j != 0}|` for `i in 0..counts_len`,
applied in ascending order to the zero-initialised 16-entry array. -/
def countsSet (bitlengths : List Nat) : Nat → List Nat → List Nat
  | 0, counts => counts
  | i + 1, counts =>
    (countsSet bitlengths i counts).set i
      ((bitlengths.filter (fun j => j == i && j != 0)).length)

/-- The `next_code` filling loop of `from_bitlengths`:
`next_code[bits] = (next_code[bits-1] + counts[bits-1]) << 1` for
`bits in 2..=max_bits` (`u32` arithmetic). -/
def nextCodeLoop (counts : List Nat) : Nat → Nat → List Nat → List Nat
  | 0, _, nc => nc
  | fuel + 1, bits, nc =>
    nextCodeLoop counts fuel (bits + 1)
      (nc.set bits (((nc.getD (bits - 1) 0 + counts.getD (bits - 1) 0) <<< 1) % 4294967296))

/-- The insertion loop of `from_bitlengths`: for each `(bitlength, symbol)`
pair (the source iterates `i in 0..min(alphabet.len(), bitlengths.len())`,
i.e. the zip), insert nonzero-length symbols at the next canonical code of
that length and post-increment the per-length code counter. -/
def buildLoop : List (Nat × Nat) → List Nat → HuffmanTree → Option HuffmanTree
  | [], _, t => some t
  | (len, sym) :: rest, next_code, t =>
    if len ≠ 0 then
      match t.insert (next_code.getD len 0) len sym with
      | none => none
      | some t' =>
        buildLoop rest (next_code.set len ((next_code.getD len 0 + 1) % 4294967296)) t'
    else buildLoop rest next_code t

/-- Source `HuffmanTree::from_bitlengths`.  `none` models the panics of the source:
`max().unwrap()` on an empty slice, and the `counts[i]` write with
`i ≥ 16` that the loop reaches exactly when `max_bits ≥ 16`. -/
def fromBitlengths (bitlengths alphabet : List Nat) : Option HuffmanTree :=
  if bitlengths.isEmpty then none
  else
    let max_bits := bitlengths.foldr Nat.max 0
    if 15 < max_bits then none
    else
      let counts := countsSet bitlengths (max_bits + 1) (List.replicate 16 0)
      let next_code := nextCodeLoop counts (max_bits - 1) 2 (List.replicate 1024 0)
      buildLoop (bitlengths.zip alphabet) next_code HuffmanTree.new

namespace HuffmanTree

/-- The `while` loop of `HuffmanTree::decode_symbol`, with fuel (the source
loop is unbounded; fuel 1024 is shown sufficient below). -/
def decodeSymbolLoop (t : HuffmanTree) : Nat → Nat → Decoder → Res (Nat × Decoder)
  | 0, _, _ => .div
  | fuel + 1, current, d =>
    match t.nodes.get? current with
    | none => .panic
    | some node =>
      if node.right.isSome || node.left.isSome then
        match d.nextBit with
        | .ok (bit, d') =>
          if bit ≠ 0 then
            match node.right with
            | some r => decodeSymbolLoop t fuel r d'
            | none => .err .TreeError
          else
            match node.left with
            | some l => decodeSymbolLoop t fuel l d'
            | none => .err .TreeError
        | .err e => .err e
        | .panic => .panic
        | .div => .div
      else
        match node.symbol with
        | some s => .ok (s, d)
        | none => .err .TreeError

/-- Source `HuffmanTree::decode_symbol` -/
def decodeSymbol (t : HuffmanTree) (d : Decoder) : Res (Nat × Decoder) :=
  decodeSymbolLoop t 1024 0 d

end HuffmanTree

/-- The push loop of `read_uncompressed`: `len` single `next_byte` reads,
each pushed onto the output. -/
def pushBytesLoop : Nat → List Nat → Decoder → BlockRes
  | 0, out, d => .ok out d
  | n + 1, out, d =>
    match d.nextByte with
    | .ok (b, d') => pushBytesLoop n (out ++ [b]) d'
    | .err e => .err e out
    | .panic => .panic
    | .div => .div

/-- Source `read_uncompressed`: `LEN`/`NLEN` (little-endian `u16`s after
byte-alignment), the one's-complement check, then the two copies the source
performs: `output.extend(next_bytes_as_slice(len))` followed by the `len`
single `next_byte` pushes of `pushBytesLoop`. -/
def readUncompressed (d : Decoder) (output : List Nat) : BlockRes :=
  match d.nextBytesAsNumber 2 with
  | .ok (len0, d) =>
    let len := len0 % 65536
    match d.nextBytesAsNumber 2 with
    | .ok (nlen0, d) =>
      let nlen := nlen0 % 65536
      let nlen_one_complement := 65535 - nlen
      if len ≠ nlen_one_complement then .err .UncompressedLengthMismatch output
      else
        match d.nextBytesAsSlice len with
        | .ok (slice, d) => pushBytesLoop len (output ++ slice) d
        | .err e => .err e output
        | .panic => .panic
        | .div => .div
    | .err e => .err e output
    | .panic => .panic
    | .div => .div
  | .err e => .err e output
  | .panic => .panic
  | .div => .div

/-- The back-reference copy loop of `decode_length_distance_pairs`:
`length` times, push `output[output.len() - distance]`.  `none` models the
panic when `distance` is zero (index out of range) or exceeds the current
output length (`usize` underflow). -/
def copyLoop : Nat → Nat → List Nat → Option (List Nat)
  | 0, _, out => some out
  | n + 1, distance, out =>
    if h : 1 ≤ distance ∧ distance ≤ out.length then
      copyLoop n distance (out ++ [out.get ⟨out.length - distance, by omega⟩])
    else none

/-- The length/distance handling of one iteration of
`decode_length_distance_pairs` for a symbol above 256: look up the length
tables at `symbol - 257`, read the extra bits, decode the distance symbol,
look up the distance tables, read its extra bits, then run the byte-by-byte
back-reference copy.  Out-of-range table lookups panic. -/
def dldpBackref (distance_tree : HuffmanTree) (symbol : Nat) (out : List Nat)
    (d : Decoder) : Res (List Nat × Decoder) :=
  let special_symbol := symbol - 257
  match TABLE_LENGTH_EXTRA_BITS.get? special_symbol with
  | none => .panic
  | some leb =>
    match d.nextBits leb with
    | .ok (lex, d) =>
      match TABLE_LENGTH_BASE.get? special_symbol with
      | none => .panic
      | some lbase =>
        let length := lex + lbase
        match distance_tree.decodeSymbol d with
        | .ok (distance_symbol, d) =>
          match TABLE_DISTANCE_EXTRA_BITS.get? distance_symbol with
          | none => .panic
          | some deb =>
            match d.nextBits deb with
            | .ok (dex, d) =>
              match TABLE_DISTANCE_BASE.get? distance_symbol with
              | none => .panic
              | some dbase =>
                let distance := dex + dbase
                match copyLoop length distance out with
                | some out => .ok (out, d)
                | none => .panic
            | .err e => .err e
            | .panic => .panic
            | .div => .div
        | .err e => .err e
        | .panic => .panic
        | .div => .div
    | .err e => .err e
    | .panic => .panic
    | .div => .div

attribute [irreducible] dldpBackref

/-- The `for` loop of `decode_length_distance_pairs` (bounded by
`LARGE_ITERATION_COUNT` in the source): literal symbols are pushed
(`symbol as u8`), symbol 256 breaks out of the loop, larger symbols are
handled by `dldpBackref`; a `?` failure returns the error with the output
as mutated so far. -/
def dldpLoop (literal_tree distance_tree : HuffmanTree) :
    Nat → List Nat → Decoder → BlockRes
  | 0, out, d => .ok out d
  | n + 1, out, d =>
    match literal_tree.decodeSymbol d with
    | .ok (symbol, d) =>
      if symbol ≤ 255 then
        dldpLoop literal_tree distance_tree n (out ++ [symbol % 256]) d
      else if symbol = 256 then .ok out d
      else
        match dldpBackref distance_tree symbol out d with
        | .ok (out, d) => dldpLoop literal_tree distance_tree n out d
        | .err e => .err e out
        | .panic => .panic
        | .div => .div
    | .err e => .err e out
    | .panic => .panic
    | .div => .div

/-- Source `decode_length_distance_pairs` -/
def decodeLengthDistancePairs (literal_tree distance_tree : HuffmanTree)
    (d : Decoder) (output : List Nat) : BlockRes :=
  dldpLoop literal_tree distance_tree LARGE_ITERATION_COUNT output d

/-- The fixed literal/length bit lengths of `decompress_huffman_static`:
8 for 0–143, 9 for 144–255, 7 for 256–279, 8 for 280–287. -/
def staticLiteralLengths : List Nat :=
  (List.range 288).map fun i =>
    if i < 144 then 8 else if i < 256 then 9 else if i < 280 then 7 else 8

/-- Source `decompress_huffman_static` -/
def decompressHuffmanStatic (d : Decoder) (output : List Nat) : BlockRes :=
  match fromBitlengths staticLiteralLengths (List.range 288) with
  | none => .panic
  | some literal_tree =>
    match fromBitlengths (List.replicate 30 5) (List.range 30) with
    | none => .panic
    | some distance_tree => decodeLengthDistancePairs literal_tree distance_tree d output

/-- The inner repeat loop of `read_trees` for symbol 16:
`repeat_length` times, write `prev` at `bitlengths[count]` and increment
`count`; `none` models the panic of a write at index `≥ 1024`. -/
def repeatWrite : Nat → Nat → List Nat → Nat → Option (List Nat × Nat)
  | 0, _, bl, c => some (bl, c)
  | n + 1, v, bl, c =>
    if c < bl.length then repeatWrite n v (bl.set c v) (c + 1) else none

/-- One iteration of the `while bitlengths_count < hlit + hdist` loop of
`read_trees`: decode a code-length symbol and apply it to the 1024-entry
bit-length array. -/
def readTreesStep (code_length_tree : HuffmanTree) (bl : List Nat) (c : Nat)
    (d : Decoder) : Res ((List Nat × Nat) × Decoder) :=
  match code_length_tree.decodeSymbol d with
  | .ok (symbol, d) =>
    if symbol ≤ 15 then
      if c < bl.length then .ok ((bl.set c symbol, c + 1), d) else .panic
    else if symbol = 16 then
      if c = 0 then .panic
      else
        match bl.get? (c - 1) with
        | none => .panic
        | some prev =>
          match d.nextBits 2 with
          | .ok (e, d) =>
            match repeatWrite (e + 3) prev bl c with
            | some (bl, c) => .ok ((bl, c), d)
            | none => .panic
          | .err e => .err e
          | .panic => .panic
          | .div => .div
    else if symbol = 17 then
      match d.nextBits 3 with
      | .ok (e, d) => .ok ((bl, c + (e + 3)), d)
      | .err e => .err e
      | .panic => .panic
      | .div => .div
    else if symbol = 18 then
      match d.nextBits 7 with
      | .ok (e, d) => .ok ((bl, c + (e + 11)), d)
      | .err e => .err e
      | .panic => .panic
      | .div => .div
    else .err .IllegalSmallTree
  | .err e => .err e
  | .panic => .panic
  | .div => .div

/-- The `while` loop of `read_trees`, with fuel (each iteration increases
the count by at least 1 towards `hlit + hdist ≤ 320`, so fuel 1024 is never
exhausted from `readTrees`). -/
def readTreesLoop (code_length_tree : HuffmanTree) :
    Nat → List Nat → Nat → Nat → Decoder → Res ((List Nat × Nat) × Decoder)
  | 0, _, _, _, _ => .div
  | fuel + 1, bl, c, target, d =>
    if c < target then
      match readTreesStep code_length_tree bl c d with
      | .ok ((bl, c), d) => readTreesLoop code_length_tree fuel bl c target d
      | .err e => .err e
      | .panic => .panic
      | .div => .div
    else .ok ((bl, c), d)

/-- The first loop of `read_trees`: for `i in 0..hclen`, write a 3-bit value
at `TABLE_CODE_LENGTH_ORDER[i]` in the 19-entry array. -/
def readClenLoop : Nat → Nat → List Nat → Decoder → Res (List Nat × Decoder)
  | 0, _, arr, d => .ok (arr, d)
  | n + 1, i, arr, d =>
    match TABLE_CODE_LENGTH_ORDER.get? i with
    | none => .panic
    | some idx =>
      match d.nextBits 3 with
      | .ok (v, d) => readClenLoop n (i + 1) (arr.set idx v) d
      | .err e => .err e
      | .panic => .panic
      | .div => .div

/-- Source `read_trees` -/
def readTrees (d : Decoder) : Res ((HuffmanTree × HuffmanTree) × Decoder) :=
  match d.nextBits 5 with
  | .ok (hlit0, d) =>
    let hlit := hlit0 + 257
    match d.nextBits 5 with
    | .ok (hdist0, d) =>
      let hdist := hdist0 + 1
      match d.nextBits 4 with
      | .ok (hclen0, d) =>
        let hclen := hclen0 + 4
        match readClenLoop hclen 0 (List.replicate 19 0) d with
        | .ok (clen_bitlengths, d) =>
          match fromBitlengths clen_bitlengths (List.range 19) with
          | none => .panic
          | some code_length_tree =>
            match readTreesLoop code_length_tree 1024 (List.replicate 1024 0) 0
                (hlit + hdist) d with
            | .ok ((bitlengths, _), d) =>
              match fromBitlengths (bitlengths.take hlit) (List.range 286) with
              | none => .panic
              | some literal_tree =>
                match fromBitlengths ((bitlengths.drop hlit).take 30) (List.range 30) with
                | none => .panic
                | some distance_tree => .ok ((literal_tree, distance_tree), d)
            | .err e => .err e
            | .panic => .panic
            | .div => .div
        | .err e => .err e
        | .panic => .panic
        | .div => .div
      | .err e => .err e
      | .panic => .panic
      | .div => .div
    | .err e => .err e
    | .panic => .panic
    | .div => .div
  | .err e => .err e
  | .panic => .panic
  | .div => .div

/-- Source `decompress_huffman_dynamic` -/
def decompressHuffmanDynamic (d : Decoder) (output : List Nat) : BlockRes :=
  match readTrees d with
  | .ok ((literal_tree, distance_tree), d) =>
    decodeLengthDistancePairs literal_tree distance_tree d output
  | .err e => .err e output
  | .panic => .panic
  | .div => .div

/-- The `btype` dispatch inside the loop of `decompress`. -/
def blockDispatch (btype : Nat) (d : Decoder) (output : List Nat) : BlockRes :=
  if btype = 0 then readUncompressed d output
  else if btype = 1 then decompressHuffmanStatic d output
  else if btype = 2 then decompressHuffmanDynamic d output
  else .err .IllegalBlockFormat output

/-- The `for _ in 0..LARGE_ITERATION_COUNT` loop of `decompress`: read
`BFINAL` and `BTYPE`, decode one block, stop when `BFINAL` is set; when the
iteration budget runs out the loop falls through to `Ok(output)`. -/
def decompressLoop : Nat → List Nat → Decoder → DRes
  | 0, output, _ => .ok output
  | n + 1, output, d =>
    match d.nextBits 1 with
    | .ok (bfinal, d) =>
      match d.nextBits 2 with
      | .ok (btype, d) =>
        match blockDispatch btype d output with
        | .ok output' d' => if bfinal ≠ 0 then .ok output' else decompressLoop n output' d'
        | .err e _ => .err e
        | .panic => .panic
        | .div => .div
      | .err e => .err e
      | .panic => .panic
      | .div => .div
    | .err e => .err e
    | .panic => .panic
    | .div => .div

/-- Source `decompress` -/
def decompress (data : List Nat) : DRes :=
  decompressLoop LARGE_ITERATION_COUNT [] (Decoder.fromBytes data)

/-- Source `decompress_zlib`: read the two header bytes, skip the 4-byte dictionary
id when bit 5 of `FLG` is set, and run `decompress` on
`data[skip_dict .. data.len() - 4]` (slicing panics when the input is too
short for these bounds). -/
def decompressZlib (data : List Nat) : DRes :=
  match data.get? 0 with
  | none => .panic
  | some _cmf =>
    match data.get? 1 with
    | none => .panic
    | some flg =>
      let fdict := (flg >>> 5) &&& 1
      let skip_dict := 2 + fdict * 4
      if 4 ≤ data.length ∧ skip_dict ≤ data.length - 4 then
        decompress ((data.drop skip_dict).take (data.length - 4 - skip_dict))
      else .panic

/-- One successful non-final iteration of the `decompress` loop: `BFINAL`
read as 0, the block decoded without error.  Used to state what the stream
driver does on a stream that never sets the final flag. -/
def blockStep (s : List Nat × Decoder) : Option (List Nat × Decoder) :=
  match s.2.nextBits 1 with
  | .ok (bfinal, d) =>
    if bfinal = 0 then
      match d.nextBits 2 with
      | .ok (btype, d) =>
        match blockDispatch btype d s.1 with
        | .ok output' d' => some (output', d')
        | _ => none
      | _ => none
    else none
  | _ => none

/-- Iterates `n` successful non-final steps of the `decompress` loop. -/
def blockSteps : Nat → (List Nat × Decoder) → Option (List Nat × Decoder)
  | 0, s => some s
  | n + 1, s =>
    match blockStep s with
    | some s' => blockSteps n s'
    | none => none

/-- Proposition stating that `c` is a child index stored in `node`. -/
def Children (node : HuffmanNode) (c : Nat) : Prop :=
  node.left = some c ∨ node.right = some c

/-- Invariant of the arena during one `insert` walk: 1024 nodes, a positive
free index, and every stored child strictly above its parent, strictly below
the free index, and inside the arena except possibly the index the walk is
standing on (the last freshly allocated child). -/
def TreeInvAux (t : HuffmanTree) (pending : Nat) : Prop :=
  t.nodes.length = 1024 ∧ 0 < t.next_free_node ∧
  ∀ i node c, t.nodes.get? i = some node → Children node c →
    i < c ∧ c < t.next_free_node ∧ (c < 1024 ∨ c = pending)

/-- Well-formedness of a finished arena: 1024 nodes, positive free index,
every stored child strictly above its parent and inside the arena. -/
def TreeWF (t : HuffmanTree) : Prop :=
  t.nodes.length = 1024 ∧ 0 < t.next_free_node ∧
  ∀ i node c, t.nodes.get? i = some node → Children node c →
    i < c ∧ c < 1024 ∧ c < t.next_free_node

/-- A small code-length tree (codes `00 → 16`, `01 → 17`, `10 → 18`) used to
instantiate the repeat-code theorem. -/
def treeC6 : HuffmanTree := (fromBitlengths [2, 2, 2] [16, 17, 18]).getD HuffmanTree.new

/-- An incomplete tree (codes `00 → 0`, `01 → 1`, `10 → 2`; code `11`
absent) used to instantiate the tree-error theorem. -/
def treeC3 : HuffmanTree := (fromBitlengths [2, 2, 2] [0, 1, 2]).getD HuffmanTree.new

/-- A tree whose 1-bit code 0 decodes to literal/length symbol 286. -/
def treeC4lit : HuffmanTree := (fromBitlengths [1] [286]).getD HuffmanTree.new

/-- A tree whose 1-bit code 0 decodes to literal/length symbol 257. -/
def treeC4len : HuffmanTree := (fromBitlengths [1] [257]).getD HuffmanTree.new

/-- A tree whose 1-bit code 0 decodes to distance symbol 30. -/
def treeC4dist : HuffmanTree := (fromBitlengths [1] [30]).getD HuffmanTree.new

/-- Zero-fuel unfolding of the loop (also forces generation of the loop's
equation lemmas). -/
theorem dldpLoop_zero (lt dt : HuffmanTree) (out : List Nat) (d : Decoder) :
    dldpLoop lt dt 0 out d = .ok out d := by
  rw [dldpLoop]

section BitReaderLemmas

/-- A bit delivered by `next_bit` is 0 or 1. -/
theorem Decoder.nextBit_le_one {d d' : Decoder} {b : Nat}
    (h : d.nextBit = .ok (b, d')) : b ≤ 1 := by
  unfold Decoder.nextBit at h
  cases hg : d.data.get? d.byte with
  | none => rw [hg] at h; exact absurd h (by simp)
  | some byteval =>
    rw [hg] at h
    by_cases hbit : d.bit + 1 ≥ 8 <;>
      simp only [hbit, if_true, if_false, ite_true, ite_false, Res.ok.injEq,
        Prod.mk.injEq, if_pos, if_neg, not_false_iff] at h <;>
    · obtain ⟨hb, -⟩ := h
      subst hb
      exact Nat.and_le_right

/-- Reading `next_bit` preserves the data and advances the byte cursor at most 1. -/
theorem Decoder.nextBit_state {d d' : Decoder} {b : Nat}
    (h : d.nextBit = .ok (b, d')) :
    d'.data = d.data ∧ d'.byte ≤ d.byte + 1 := by
  unfold Decoder.nextBit at h
  cases hg : d.data.get? d.byte with
  | none => rw [hg] at h; exact absurd h (by simp)
  | some byteval =>
    rw [hg] at h
    by_cases hbit : d.bit + 1 ≥ 8 <;>
      simp only [hbit, ite_true, ite_false, Res.ok.injEq, Prod.mk.injEq] at h <;>
      obtain ⟨-, hd⟩ := h <;> subst hd <;> simp

/-- Reading `next_bit` succeeds whenever the byte cursor is in range. -/
theorem Decoder.nextBit_ok_of_lt {d : Decoder} (h : d.byte < d.data.length) :
    ∃ b d', d.nextBit = .ok (b, d') := by
  unfold Decoder.nextBit
  cases hg : d.data.get? d.byte with
  | none => exact absurd (List.get?_eq_none.mp hg) (by omega)
  | some byteval =>
    by_cases hbit : d.bit + 1 ≥ 8 <;> simp [hbit]

/-- Characterisation of the accumulator loop of `next_bits`: starting from a
partial accumulator `o` whose set bits lie below position `i`, the loop
delivers `o` plus the freshly read bits shifted up by `i`. -/
theorem Decoder.nextBitsGo_char (n : Nat) :
    ∀ (i o : Nat) (d : Decoder), o < 2 ^ i →
      nextBitsGo n i o d =
        (match nextBitsGo n 0 0 d with
          | .ok (v, d') => .ok (o + v * 2 ^ i, d')
          | r => r) := by
  induction n with
  | zero => intro i o d _; simp [nextBitsGo]
  | succ n ih =>
    intro i o d ho
    rw [nextBitsGo, nextBitsGo]
    cases hb : d.nextBit with
    | ok p =>
      obtain ⟨b, d'⟩ := p
      have hb1 : b ≤ 1 := Decoder.nextBit_le_one hb
      have hor : ∀ (m : Nat) (oo : Nat), oo < 2 ^ m → oo ||| (b <<< m) = oo + b * 2 ^ m := by
        intro m oo hoo
        rw [Nat.shiftLeft_eq, Nat.mul_comm b, Nat.lor_comm, ← Nat.mul_add_lt_is_or hoo]
        omega
      dsimp only
      rw [hor i o ho, hor 0 0 (by norm_num)]
      have ho' : o + b * 2 ^ i < 2 ^ (i + 1) := by
        have : b * 2 ^ i ≤ 2 ^ i := by
          calc b * 2 ^ i ≤ 1 * 2 ^ i := Nat.mul_le_mul_right _ hb1
          _ = 2 ^ i := Nat.one_mul _
        have h2 : (2:Nat) ^ (i + 1) = 2 ^ i + 2 ^ i := by ring
        omega
      rw [ih (i + 1) (o + b * 2 ^ i) d' ho', ih 1 (0 + b * 2 ^ 0) d' (by simpa using hb1.trans_lt one_lt_two)]
      cases hrest : nextBitsGo n 0 0 d' with
      | ok q =>
        obtain ⟨v, d''⟩ := q
        simp only [Res.ok.injEq, Prod.mk.injEq]
        constructor
        · ring
        · trivial
      | err e => rfl
      | panic => rfl
      | div => rfl
    | err e => rfl
    | panic => rfl
    | div => rfl

/-- The value assembled by `next_bits n` is below `2^n`. -/
theorem Decoder.nextBits_lt {d d' : Decoder} {n v : Nat}
    (h : d.nextBits n = .ok (v, d')) : v < 2 ^ n := by
  induction n generalizing d v d' with
  | zero =>
    rw [Decoder.nextBits, nextBitsGo] at h
    cases h
    exact Nat.one_pos
  | succ n ih =>
    rw [Decoder.nextBits, nextBitsGo] at h
    cases hb : d.nextBit with
    | ok p =>
      obtain ⟨b, d1⟩ := p
      rw [hb] at h
      dsimp only at h
      have hb1 : b ≤ 1 := Decoder.nextBit_le_one hb
      have hchar := Decoder.nextBitsGo_char n 1 (0 ||| b <<< 0) d1
        (by simpa [Nat.shiftLeft_eq] using hb1.trans_lt one_lt_two)
      rw [hchar] at h
      cases hrest : nextBitsGo n 0 0 d1 with
      | ok q =>
        obtain ⟨w, d2⟩ := q
        rw [hrest] at h
        simp only [Res.ok.injEq, Prod.mk.injEq] at h
        obtain ⟨hv, -⟩ := h
        have hw : w < 2 ^ n := ih (d := d1) (v := w) hrest
        subst hv
        have : (2:Nat) ^ (n + 1) = 2 ^ n * 2 := by ring
        simp only [Nat.shiftLeft_eq, Nat.pow_zero, Nat.mul_one, Nat.zero_or,
          Nat.pow_one] at *
        omega
      | err e => rw [hrest] at h; exact absurd h (by simp)
      | panic => rw [hrest] at h; exact absurd h (by simp)
      | div => rw [hrest] at h; exact absurd h (by simp)
    | err e => rw [hb] at h; exact absurd h (by simp)
    | panic => rw [hb] at h; exact absurd h (by simp)
    | div => rw [hb] at h; exact absurd h (by simp)

end BitReaderLemmas

/-- C7: the bit reader reads bits least-significant-bit first within each
byte, rolling into the next byte after the 8th bit, and `next_bits n`
assembles the bits so the first bit read is the least significant bit of the
result; in particular `next_bits 3` on the single byte `0b11001011` returns
3. -/
theorem c7_bit_order :
    (∀ (d : Decoder) (byteval : Nat),
        d.data.get? d.byte = some byteval → d.bit < 8 →
        d.nextBit = .ok ((if byteval.testBit d.bit then 1 else 0),
          if d.bit + 1 = 8 then Decoder.mk d.data (d.byte + 1) 0
          else Decoder.mk d.data d.byte (d.bit + 1))) ∧
    (∀ (d d1 d2 : Decoder) (n b v : Nat),
        d.nextBit = .ok (b, d1) → d1.nextBits n = .ok (v, d2) →
        d.nextBits (n + 1) = .ok (b + 2 * v, d2)) ∧
    Decoder.nextBits ⟨[0b11001011], 0, 0⟩ 3 = .ok (3, ⟨[0b11001011], 0, 3⟩) := by
  refine ⟨?_, ?_, by decide⟩
  · intro d byteval hg hlt
    have hval : (byteval >>> d.bit) &&& 1 = (if byteval.testBit d.bit then 1 else 0) := by
      rw [Nat.and_one_is_mod, Nat.shiftRight_eq_div_pow, Nat.testBit_to_div_mod]
      by_cases h : byteval / 2 ^ d.bit % 2 = 1
      · simp [h]
      · have h2 : byteval / 2 ^ d.bit % 2 = 0 := by omega
        simp [h, h2]
    unfold Decoder.nextBit
    rw [hg]
    dsimp only
    rw [hval]
    by_cases h8 : d.bit + 1 = 8
    · rw [if_pos (show d.bit + 1 ≥ 8 by omega), if_pos h8]
    · rw [if_neg (show ¬ d.bit + 1 ≥ 8 by omega), if_neg h8]
  · intro d d1 d2 n b v hb hv
    have hb1 : b ≤ 1 := Decoder.nextBit_le_one hb
    rw [Decoder.nextBits] at hv ⊢
    rw [Decoder.nextBitsGo, hb]
    dsimp only
    rw [Nat.zero_or, Nat.shiftLeft_zero,
      Decoder.nextBitsGo_char n 1 b d1 (by omega), hv]
    dsimp only
    congr 2
    ring

/-- C7 witness at the concrete byte `0b11001011 = 203`. -/
theorem c7_bit_order_witness :
    Decoder.nextBit ⟨[203], 0, 0⟩ = .ok (1, ⟨[203], 0, 1⟩) ∧
    Decoder.nextBits ⟨[203], 0, 0⟩ 3 = .ok (3, ⟨[203], 0, 3⟩) := by
  constructor
  · have h := c7_bit_order.1 ⟨[203], 0, 0⟩ 203 rfl (by norm_num)
    simpa using h
  · exact c7_bit_order.2.1 ⟨[203], 0, 0⟩ ⟨[203], 0, 1⟩ ⟨[203], 0, 3⟩ 2 1 1
      (by decide) (by decide)

/-- C1 (code bug evidence): decoding the stored block
`[0x01, 0x01, 0x00, 0xFE, 0xFF, 0xAB, 0xCD]` (`BFINAL = 1`, `BTYPE = 00`,
`LEN = 1`, correct `NLEN = 0xFFFE`, data byte `0xAB` followed by `0xCD`)
appends TWO bytes `[0xAB, 0xCD]` to the output — the `LEN`-byte slice via
`extend` and then the next `LEN` bytes via the push loop — instead of the
single byte `[0xAB]` the specification requires, and the input cursor
advances `2·LEN` bytes past the length fields. -/
theorem c1_stored_block_double_copy :
    decompress [0x01, 0x01, 0x00, 0xFE, 0xFF, 0xAB, 0xCD] = DRes.ok [0xAB, 0xCD] := by
  rfl

/-- C5: a stored block whose `NLEN` is not the one's-complement of `LEN`
makes `read_uncompressed` return `UncompressedLengthMismatch` with the
output untouched, and the `decompress` loop propagates that error to its
caller. -/
theorem c5_nlen_mismatch :
    (∀ (d d1 d2 : Decoder) (output : List Nat) (len0 nlen0 : Nat),
        d.nextBytesAsNumber 2 = .ok (len0, d1) →
        d1.nextBytesAsNumber 2 = .ok (nlen0, d2) →
        len0 % 65536 ≠ 65535 - nlen0 % 65536 →
        readUncompressed d output = .err .UncompressedLengthMismatch output) ∧
    (∀ (n : Nat) (output : List Nat) (d d1 d2 : Decoder) (bfinal : Nat)
        (output2 : List Nat),
        d.nextBits 1 = .ok (bfinal, d1) →
        d1.nextBits 2 = .ok (0, d2) →
        readUncompressed d2 output = .err .UncompressedLengthMismatch output2 →
        decompressLoop (n + 1) output d = .err .UncompressedLengthMismatch) := by
  constructor
  · intro d d1 d2 output len0 nlen0 h1 h2 hne
    unfold readUncompressed
    rw [h1]
    dsimp only
    rw [h2]
    dsimp only
    rw [if_pos hne]
  · intro n output d d1 d2 bfinal output2 h1 h2 hblock
    rw [decompressLoop, h1]
    dsimp only
    rw [h2]
    dsimp only
    rw [show blockDispatch 0 d2 output = readUncompressed d2 output from rfl, hblock]

/-- C5 witness: `LEN = 1` against `NLEN = 0` (complement 65535). -/
theorem c5_nlen_mismatch_witness :
    readUncompressed ⟨[1, 0, 0, 0], 0, 0⟩ [] =
      .err .UncompressedLengthMismatch [] ∧
    decompressLoop 1 [] ⟨[0, 1, 0, 0, 0, 0], 0, 0⟩ =
      .err .UncompressedLengthMismatch := by
  constructor
  · exact c5_nlen_mismatch.1 ⟨[1, 0, 0, 0], 0, 0⟩ ⟨[1, 0, 0, 0], 2, 0⟩
      ⟨[1, 0, 0, 0], 4, 0⟩ [] 1 0 (by decide) (by decide) (by decide)
  · exact c5_nlen_mismatch.2 0 [] ⟨[0, 1, 0, 0, 0, 0], 0, 0⟩
      ⟨[0, 1, 0, 0, 0, 0], 0, 1⟩ ⟨[0, 1, 0, 0, 0, 0], 0, 3⟩ 0 []
      (by decide) (by decide)
      (c5_nlen_mismatch.1 ⟨[0, 1, 0, 0, 0, 0], 0, 3⟩ ⟨[0, 1, 0, 0, 0, 0], 3, 0⟩
        ⟨[0, 1, 0, 0, 0, 0], 5, 0⟩ [] 1 0 (by decide) (by decide) (by decide))

/-- The value `(x >>> k) &&& 1` is the `k`-th bit of `x`. -/
theorem shiftRight_and_one_eq_testBit (x k : Nat) :
    (x >>> k) &&& 1 = (if x.testBit k then 1 else 0) := by
  rw [Nat.and_one_is_mod, Nat.shiftRight_eq_div_pow, Nat.testBit_to_div_mod]
  by_cases h : x / 2 ^ k % 2 = 1
  · simp [h]
  · have h2 : x / 2 ^ k % 2 = 0 := by omega
    simp [h, h2]

/-- C8: `decompress_zlib` skips the 2 header bytes, additionally skips the
4-byte dictionary id exactly when bit 5 of the second header byte is set,
drops the last 4 bytes, and returns exactly `decompress` of the remaining
middle slice. -/
theorem c8_zlib_strips_wrapper :
    ∀ (data : List Nat) (flg : Nat),
      data.get? 1 = some flg →
      2 + ((flg >>> 5) &&& 1) * 4 + 4 ≤ data.length →
      decompressZlib data =
        decompress ((data.take (data.length - 4)).drop
          (if flg.testBit 5 then 6 else 2)) := by
  intro data flg hflg hlen
  have h1 : 1 < data.length := by
    by_contra hcon
    rw [List.get?_eq_none.mpr (by omega)] at hflg
    exact absurd hflg (by simp)
  have h0 : ∃ c, data.get? 0 = some c := by
    cases hg : data.get? 0 with
    | none => exact absurd (List.get?_eq_none.mp hg) (by omega)
    | some c => exact ⟨c, rfl⟩
  obtain ⟨cmf, hcmf⟩ := h0
  unfold decompressZlib
  rw [hcmf]
  dsimp only
  rw [hflg]
  dsimp only
  rw [if_pos (by constructor <;> omega)]
  rw [shiftRight_and_one_eq_testBit]
  by_cases hb : flg.testBit 5
  · rw [if_pos hb, if_pos hb, List.drop_take]
  · rw [if_neg hb, if_neg hb, List.drop_take]

/-- C8 witness: an 8-byte wrapped stream with the dictionary flag clear. -/
theorem c8_zlib_strips_wrapper_witness :
    decompressZlib [0x78, 0x9C, 0x03, 0x00, 0, 0, 0, 1] = decompress [0x03, 0x00] := by
  have h := c8_zlib_strips_wrapper [0x78, 0x9C, 0x03, 0x00, 0, 0, 0, 1] 0x9C
    (by decide) (by decide)
  simpa using h

/-- C2: the back-reference loop appends `length` bytes one at a time, each
byte equal to the byte `distance` positions back at the moment of its
append; with output `"a"` a pair `(length 4, distance 1)` yields
`"aaaaa"`. -/
theorem c2_overlapping_copy :
    (∀ (length distance : Nat) (out : List Nat),
        1 ≤ distance → distance ≤ out.length →
        ∃ res, copyLoop length distance out = some res ∧
          res.length = out.length + length ∧
          res.take out.length = out ∧
          (∀ i, i < length →
            res.get? (out.length + i) = res.get? (out.length + i - distance))) ∧
    copyLoop 4 1 [97] = some [97, 97, 97, 97, 97] := by
  constructor
  · intro length
    induction length with
    | zero =>
      intro distance out h1 h2
      exact ⟨out, rfl, by omega, List.take_length out, fun i hi => absurd hi (by omega)⟩
    | succ n ih =>
      intro distance out h1 h2
      have hidxlt : out.length - distance < out.length := by omega
      rw [copyLoop, dif_pos ⟨h1, h2⟩]
      set b := out.get ⟨out.length - distance, by omega⟩ with hb
      have hlenapp : (out ++ [b]).length = out.length + 1 := by simp
      have h2' : distance ≤ (out ++ [b]).length := by omega
      obtain ⟨res, hres, hlen, htake, hidx⟩ := ih distance (out ++ [b]) h1 h2'
      rw [hlenapp] at hlen htake hidx
      refine ⟨res, hres, by omega, ?_, ?_⟩
      · have h5 : res.take out.length = (res.take (out.length + 1)).take out.length := by
          rw [List.take_take, Nat.min_eq_left (by omega)]
        rw [h5, htake]
        exact List.take_left out [b]
      · have htk : ∀ j, j < out.length + 1 → res.get? j = (out ++ [b]).get? j := by
          intro j hj
          rw [← htake]
          simp only [List.get?_eq_getElem?]
          rw [List.getElem?_take, if_pos hj]
        intro i hi
        match i with
        | 0 =>
          show res.get? out.length = res.get? (out.length - distance)
          have hL : res.get? out.length = some b := by
            rw [htk out.length (by omega)]
            simp only [List.get?_eq_getElem?]
            rw [List.getElem?_append_right (by omega)]
            simp
          have hR : res.get? (out.length - distance) = some b := by
            rw [htk (out.length - distance) (by omega)]
            simp only [List.get?_eq_getElem?]
            rw [List.getElem?_append, if_pos hidxlt, ← List.get?_eq_getElem?,
              List.get?_eq_get hidxlt]
          rw [hL, hR]
        | Nat.succ j =>
          have e2 : out.length + (j + 1) = out.length + 1 + j := by omega
          rw [e2]
          exact hidx j (by omega)
  · decide

/-- C2 witness at output `"a"`, `length = 4`, `distance = 1`. -/
theorem c2_overlapping_copy_witness :
    (copyLoop 4 1 [97]).isSome = true := by
  obtain ⟨res, hres, -, -, -⟩ := c2_overlapping_copy.1 4 1 [97] (by decide) (by decide)
  rw [hres]
  rfl

/-- C9: the stream driver stops exactly when the decoded block's final flag
is set (continuing otherwise), it runs at most `LARGE_ITERATION_COUNT`
iterations, and when every block decodes successfully with the final flag
clear it exhausts that budget and returns `Ok` with the output produced so
far instead of an error. -/
theorem c9_driver_final_flag_and_cap :
    (∀ (n : Nat) (output : List Nat) (d d1 d2 d3 : Decoder) (bfinal btype : Nat)
        (output' : List Nat),
        d.nextBits 1 = .ok (bfinal, d1) →
        d1.nextBits 2 = .ok (btype, d2) →
        blockDispatch btype d2 output = .ok output' d3 →
        (bfinal ≠ 0 → decompressLoop (n + 1) output d = .ok output') ∧
        (bfinal = 0 → decompressLoop (n + 1) output d = decompressLoop n output' d3)) ∧
    (∀ (n : Nat) (s s' : List Nat × Decoder),
        blockSteps n s = some s' → decompressLoop n s.1 s.2 = .ok s'.1) ∧
    (∀ data, decompress data =
        decompressLoop LARGE_ITERATION_COUNT [] (Decoder.fromBytes data)) := by
  refine ⟨?_, ?_, fun data => rfl⟩
  · intro n output d d1 d2 d3 bfinal btype output' h1 h2 h3
    constructor <;> intro hb
    · rw [decompressLoop, h1]
      dsimp only
      rw [h2]
      dsimp only
      rw [h3]
      dsimp only
      rw [if_pos hb]
    · rw [decompressLoop, h1]
      dsimp only
      rw [h2]
      dsimp only
      rw [h3]
      dsimp only
      rw [if_neg (by omega)]
  · intro n
    induction n with
    | zero =>
      intro s s' h
      rw [blockSteps] at h
      cases h
      rfl
    | succ n ih =>
      intro s s' h
      rw [blockSteps] at h
      cases hstep : blockStep s with
      | none => rw [hstep] at h; exact absurd h (by simp)
      | some s1 =>
        rw [hstep] at h
        unfold blockStep at hstep
        cases h1 : s.2.nextBits 1 with
        | ok p =>
          obtain ⟨bfinal, d1⟩ := p
          rw [h1] at hstep
          dsimp only at hstep
          by_cases hbf : bfinal = 0
          · rw [if_pos hbf] at hstep
            cases h2 : d1.nextBits 2 with
            | ok q =>
              obtain ⟨btype, d2⟩ := q
              rw [h2] at hstep
              dsimp only at hstep
              cases h3 : blockDispatch btype d2 s.1 with
              | ok out' d3 =>
                rw [h3] at hstep
                dsimp only at hstep
                cases hstep
                rw [decompressLoop, h1]
                dsimp only
                rw [h2]
                dsimp only
                rw [h3]
                dsimp only
                rw [if_neg (by omega)]
                exact ih (out', d3) s' h
              | err e out2 => rw [h3] at hstep; exact absurd hstep (by simp)
              | panic => rw [h3] at hstep; exact absurd hstep (by simp)
              | div => rw [h3] at hstep; exact absurd hstep (by simp)
            | err e => rw [h2] at hstep; exact absurd hstep (by simp)
            | panic => rw [h2] at hstep; exact absurd hstep (by simp)
            | div => rw [h2] at hstep; exact absurd hstep (by simp)
          · rw [if_neg hbf] at hstep; exact absurd hstep (by simp)
        | err e => rw [h1] at hstep; exact absurd hstep (by simp)
        | panic => rw [h1] at hstep; exact absurd hstep (by simp)
        | div => rw [h1] at hstep; exact absurd hstep (by simp)

/-- C9 witness: a final stored block stops the loop with iterations to
spare; a non-final stored block followed by fuel exhaustion still yields
`Ok`. -/
theorem c9_driver_final_flag_and_cap_witness :
    decompressLoop 5 [] ⟨[1, 0, 0, 255, 255], 0, 0⟩ = DRes.ok [] ∧
    decompressLoop 1 [] ⟨[0, 0, 0, 255, 255], 0, 0⟩ = DRes.ok [] := by
  constructor
  · exact ((c9_driver_final_flag_and_cap.1 4 [] ⟨[1, 0, 0, 255, 255], 0, 0⟩
      ⟨[1, 0, 0, 255, 255], 0, 1⟩ ⟨[1, 0, 0, 255, 255], 0, 3⟩
      ⟨[1, 0, 0, 255, 255], 5, 0⟩ 1 0 []
      (by decide) (by decide) (by decide)).1 (by decide))
  · exact c9_driver_final_flag_and_cap.2.1 1 ([], ⟨[0, 0, 0, 255, 255], 0, 0⟩)
      ([], ⟨[0, 0, 0, 255, 255], 5, 0⟩) (by decide)

/-- Characterisation of the symbol-16 repeat loop of `read_trees`: when the
writes stay inside the array it writes `v` at positions `c, …, c+n-1`,
advances the count by `n`, and leaves everything else unchanged. -/
theorem repeatWrite_char :
    ∀ (n v : Nat) (bl : List Nat) (c : Nat), c + n ≤ bl.length →
      ∃ bl', repeatWrite n v bl c = some (bl', c + n) ∧
        bl'.length = bl.length ∧
        (∀ j, c ≤ j → j < c + n → bl'.get? j = some v) ∧
        (∀ j, j < c ∨ c + n ≤ j → bl'.get? j = bl.get? j) := by
  intro n
  induction n with
  | zero =>
    intro v bl c hle
    exact ⟨bl, rfl, rfl, fun j h1 h2 => absurd h2 (by omega),
      fun j hj => rfl⟩
  | succ n ih =>
    intro v bl c hle
    have hc : c < bl.length := by omega
    rw [repeatWrite, if_pos hc]
    have hle2 : c + 1 + n ≤ (bl.set c v).length := by
      rw [List.length_set]; omega
    obtain ⟨bl', hrw, hlen, hin, hout⟩ := ih v (bl.set c v) (c + 1) hle2
    rw [List.length_set] at hlen
    have heq : c + 1 + n = c + (n + 1) := by omega
    rw [heq] at hrw
    refine ⟨bl', hrw, hlen, ?_, ?_⟩
    · intro j h1 h2
      by_cases hjc : j = c
      · subst hjc
        rw [hout j (Or.inl (by omega)), List.get?_eq_getElem?,
          List.getElem?_set_eq_of_lt v hc]
      · exact hin j (by omega) (by omega)
    · intro j hj
      have hne : c ≠ j := by omega
      rw [hout j (by omega), List.get?_eq_getElem?, List.getElem?_set_ne hne,
        ← List.get?_eq_getElem?]

/-- C6: while rebuilding the dynamic trees, code-length symbol 16 writes
`next 2 bits + 3` (3–6) copies of the previous bit length at the current
position, symbol 17 skips `next 3 bits + 3` positions leaving them at bit
length 0, and symbol 18 skips `next 7 bits + 11` positions leaving them at
0 — with extra-bits value 4 exactly 15 zero-length entries. -/
theorem c6_repeat_codes :
    (∀ (t : HuffmanTree) (bl : List Nat) (c : Nat) (d d1 d2 : Decoder) (e prev : Nat),
        t.decodeSymbol d = .ok (16, d1) →
        d1.nextBits 2 = .ok (e, d2) →
        1 ≤ c → c + (e + 3) ≤ bl.length → bl.get? (c - 1) = some prev →
        ∃ bl', readTreesStep t bl c d = .ok ((bl', c + (e + 3)), d2) ∧
          3 ≤ e + 3 ∧ e + 3 ≤ 6 ∧
          (∀ j, c ≤ j → j < c + (e + 3) → bl'.get? j = some prev) ∧
          (∀ j, j < c ∨ c + (e + 3) ≤ j → bl'.get? j = bl.get? j)) ∧
    (∀ (t : HuffmanTree) (bl : List Nat) (c : Nat) (d d1 d2 : Decoder) (e : Nat),
        t.decodeSymbol d = .ok (17, d1) →
        d1.nextBits 3 = .ok (e, d2) →
        (∀ k, c ≤ k → k < bl.length → bl.get? k = some 0) →
        c + (e + 3) ≤ bl.length →
        readTreesStep t bl c d = .ok ((bl, c + (e + 3)), d2) ∧
          3 ≤ e + 3 ∧ e + 3 ≤ 10 ∧
          (∀ j, c ≤ j → j < c + (e + 3) → bl.get? j = some 0)) ∧
    (∀ (t : HuffmanTree) (bl : List Nat) (c : Nat) (d d1 d2 : Decoder) (e : Nat),
        t.decodeSymbol d = .ok (18, d1) →
        d1.nextBits 7 = .ok (e, d2) →
        (∀ k, c ≤ k → k < bl.length → bl.get? k = some 0) →
        c + (e + 11) ≤ bl.length →
        readTreesStep t bl c d = .ok ((bl, c + (e + 11)), d2) ∧
          11 ≤ e + 11 ∧ e + 11 ≤ 138 ∧
          (∀ j, c ≤ j → j < c + (e + 11) → bl.get? j = some 0) ∧
          (e = 4 → readTreesStep t bl c d = .ok ((bl, c + 15), d2))) := by
  refine ⟨?_, ?_, ?_⟩
  · intro t bl c d d1 d2 e prev hsym hbits hc hle hprev
    have he : e < 4 := by simpa using Decoder.nextBits_lt hbits
    obtain ⟨bl', hrw, hlen, hin, hout⟩ := repeatWrite_char (e + 3) prev bl c hle
    refine ⟨bl', ?_, by omega, by omega, hin, hout⟩
    unfold readTreesStep
    rw [hsym]
    dsimp only
    rw [if_neg (by omega), if_pos rfl, if_neg (by omega), hprev]
    dsimp only
    rw [hbits]
    dsimp only
    rw [hrw]
  · intro t bl c d d1 d2 e hsym hbits hzero hle
    have he : e < 8 := by simpa using Decoder.nextBits_lt hbits
    refine ⟨?_, by omega, by omega, fun j h1 h2 => hzero j h1 (by omega)⟩
    unfold readTreesStep
    rw [hsym]
    dsimp only
    rw [if_neg (by omega), if_neg (by omega), if_pos rfl]
    rw [hbits]
  · intro t bl c d d1 d2 e hsym hbits hzero hle
    have he : e < 128 := by simpa using Decoder.nextBits_lt hbits
    have hmain : readTreesStep t bl c d = .ok ((bl, c + (e + 11)), d2) := by
      unfold readTreesStep
      rw [hsym]
      dsimp only
      rw [if_neg (by omega), if_neg (by omega), if_neg (by omega), if_pos rfl]
      rw [hbits]
    refine ⟨hmain, by omega, by omega, fun j h1 h2 => hzero j h1 (by omega), ?_⟩
    intro he4
    subst he4
    exact hmain

/-- C6 witness: symbol 16 with extra bits 3 succeeds (copying the previous
length 6 times); symbol 17 with extra bits 0 skips 3 zero entries; symbol 18
with extra bits 4 produces exactly 15 zero entries. -/
theorem c6_repeat_codes_witness :
    readTreesStep treeC6 [9, 0, 0, 0, 0, 0, 0, 0] 1 ⟨[12], 0, 0⟩ ≠ Res.div ∧
    readTreesStep treeC6 [0, 0, 0] 0 ⟨[2], 0, 0⟩ =
      .ok (([0, 0, 0], 0 + (0 + 3)), ⟨[2], 0, 5⟩) ∧
    readTreesStep treeC6 (List.replicate 15 0) 0 ⟨[17, 0], 0, 0⟩ =
      .ok ((List.replicate 15 0, 0 + 15), ⟨[17, 0], 1, 1⟩) := by
  refine ⟨?_, ?_, ?_⟩
  · obtain ⟨bl', hrw, -⟩ := c6_repeat_codes.1 treeC6 [9, 0, 0, 0, 0, 0, 0, 0] 1
      ⟨[12], 0, 0⟩ ⟨[12], 0, 2⟩ ⟨[12], 0, 4⟩ 3 9
      (by decide) (by decide) (by decide) (by decide) (by decide)
    rw [hrw]
    simp
  · exact (c6_repeat_codes.2.1 treeC6 [0, 0, 0] 0 ⟨[2], 0, 0⟩ ⟨[2], 0, 2⟩ ⟨[2], 0, 5⟩ 0
      (by decide) (by decide) (by decide) (by decide)).1
  · exact (c6_repeat_codes.2.2 treeC6 (List.replicate 15 0) 0 ⟨[17, 0], 0, 0⟩
      ⟨[17, 0], 0, 2⟩ ⟨[17, 0], 1, 1⟩ 4
      (by decide) (by decide) (by decide) (by decide)).2.2.2.2 rfl

/-- C3 (amended): when a decode walk needs a child that is absent, the walk
returns `TreeError`, which the shared loop and the stream driver propagate
to the caller as `Err(TreeError)`; but when the input is exhausted mid-code
the walk panics on the out-of-bounds `next_bit` read instead of returning
`TreeError`. -/
theorem c3_absent_child_tree_error :
    (∀ (t : HuffmanTree) (fuel current : Nat) (d d' : Decoder)
        (node : HuffmanNode) (bit : Nat),
        t.nodes.get? current = some node →
        (node.right.isSome || node.left.isSome) = true →
        d.nextBit = .ok (bit, d') →
        (if bit ≠ 0 then node.right = none else node.left = none) →
        t.decodeSymbolLoop (fuel + 1) current d = .err .TreeError) ∧
    (∀ (t : HuffmanTree) (fuel current : Nat) (d : Decoder) (node : HuffmanNode),
        t.nodes.get? current = some node →
        (node.right.isSome || node.left.isSome) = true →
        d.nextBit = .panic →
        t.decodeSymbolLoop (fuel + 1) current d = .panic) ∧
    (∀ (lt dt : HuffmanTree) (n : Nat) (out : List Nat) (d : Decoder)
        (e : DecompressResult),
        lt.decodeSymbol d = .err e →
        dldpLoop lt dt (n + 1) out d = .err e out) ∧
    (∀ (n : Nat) (output : List Nat) (d d1 d2 : Decoder) (bfinal btype : Nat)
        (e : DecompressResult) (output2 : List Nat),
        d.nextBits 1 = .ok (bfinal, d1) →
        d1.nextBits 2 = .ok (btype, d2) →
        blockDispatch btype d2 output = .err e output2 →
        decompressLoop (n + 1) output d = .err e) := by
  refine ⟨?_, ?_, ?_, ?_⟩
  · intro t fuel current d d' node bit hnode hchild hbit hmiss
    rw [HuffmanTree.decodeSymbolLoop, hnode]
    dsimp only
    rw [if_pos hchild, hbit]
    dsimp only
    by_cases hb : bit ≠ 0
    · rw [if_pos hb] at hmiss
      rw [if_pos hb, hmiss]
    · rw [if_neg hb] at hmiss
      rw [if_neg hb, hmiss]
  · intro t fuel current d node hnode hchild hbit
    rw [HuffmanTree.decodeSymbolLoop, hnode]
    dsimp only
    rw [if_pos hchild, hbit]
  · intro lt dt n out d e herr
    rw [dldpLoop, herr]
  · intro n output d d1 d2 bfinal btype e output2 h1 h2 h3
    rw [decompressLoop, h1]
    dsimp only
    rw [h2]
    dsimp only
    rw [h3]

/-- C3 counterexample: `[5, 0, 32, 8]` is a dynamic block whose code-length
code stream ends one bit into a Huffman code (truncated mid-code), and
`decompress` panics on the out-of-bounds read instead of returning
`Err(TreeError)` as the claim requires. -/
theorem c3_truncated_stream_panics : decompress [5, 0, 32, 8] = DRes.panic := by
  decide!

/-- C3 witness: walking `treeC3` from its right child with a set bit hits
the absent `11` child and yields `TreeError`; the same node panics when the
input is exhausted; both propagation conjuncts at concrete inputs. -/
theorem c3_absent_child_tree_error_witness :
    treeC3.decodeSymbolLoop 1 4 ⟨[1], 0, 0⟩ = .err .TreeError ∧
    treeC3.decodeSymbolLoop 1 4 ⟨[], 0, 0⟩ = .panic ∧
    dldpLoop treeC3 treeC3 1 [] ⟨[3], 0, 0⟩ = .err .TreeError [] ∧
    decompressLoop 1 [] ⟨[7], 0, 0⟩ = .err .IllegalBlockFormat := by
  refine ⟨?_, ?_, ?_, ?_⟩
  · exact c3_absent_child_tree_error.1 treeC3 0 4 ⟨[1], 0, 0⟩ ⟨[1], 0, 1⟩
      { symbol := none, left := some 5, right := none } 1
      (by decide) (by decide) (by decide) (by decide)
  · exact c3_absent_child_tree_error.2.1 treeC3 0 4 ⟨[], 0, 0⟩
      { symbol := none, left := some 5, right := none }
      (by decide) (by decide) (by decide)
  · exact c3_absent_child_tree_error.2.2.1 treeC3 treeC3 0 [] ⟨[3], 0, 0⟩ .TreeError
      (by decide)
  · exact c3_absent_child_tree_error.2.2.2 0 [] ⟨[7], 0, 0⟩ ⟨[7], 0, 1⟩ ⟨[7], 0, 3⟩
      1 3 .IllegalBlockFormat [] (by decide) (by decide) (by decide)

/-- C4 (amended): in the shared loop, a literal/length symbol above 285
(reachable as 286/287 via the fixed tree) indexes the 29-entry length tables
out of range and panics, and a distance symbol outside the 30-entry distance
tables likewise panics — neither returns `Err(TreeError)`. -/
theorem c4_out_of_range_symbols_panic :
    (∀ (lt dt : HuffmanTree) (n : Nat) (out : List Nat) (d d1 : Decoder) (s : Nat),
        lt.decodeSymbol d = .ok (s, d1) → 286 ≤ s →
        dldpLoop lt dt (n + 1) out d = .panic) ∧
    (∀ (lt dt : HuffmanTree) (n : Nat) (out : List Nat) (d d1 d2 d3 : Decoder)
        (s leb lex ds : Nat),
        lt.decodeSymbol d = .ok (s, d1) → 256 < s →
        TABLE_LENGTH_EXTRA_BITS.get? (s - 257) = some leb →
        d1.nextBits leb = .ok (lex, d2) →
        dt.decodeSymbol d2 = .ok (ds, d3) → 30 ≤ ds →
        dldpLoop lt dt (n + 1) out d = .panic) := by
  constructor
  · intro lt dt n out d d1 s hsym hs
    rw [dldpLoop, hsym]
    dsimp only
    rw [if_neg (by omega), if_neg (by omega)]
    have hmiss : TABLE_LENGTH_EXTRA_BITS.get? (s - 257) = none := by
      rw [List.get?_eq_getElem?]
      exact List.getElem?_eq_none (by rw [show TABLE_LENGTH_EXTRA_BITS.length = 29 from rfl]; omega)
    have hback : dldpBackref dt s out d1 = .panic := by
      unfold dldpBackref
      dsimp only
      rw [hmiss]
    rw [hback]
  · intro lt dt n out d d1 d2 d3 s leb lex ds hsym hs hleb hlex hds hds30
    rw [dldpLoop, hsym]
    dsimp only
    rw [if_neg (by omega), if_neg (by omega)]
    have hlt : s - 257 < 29 := by
      by_contra hcon
      rw [List.get?_eq_getElem?, List.getElem?_eq_none
        (by rw [show TABLE_LENGTH_EXTRA_BITS.length = 29 from rfl]; omega)] at hleb
      exact absurd hleb (by simp)
    have hlbase : ∃ lbase, TABLE_LENGTH_BASE.get? (s - 257) = some lbase := by
      cases hg : TABLE_LENGTH_BASE.get? (s - 257) with
      | none =>
        rw [List.get?_eq_getElem?] at hg
        have := List.getElem?_eq_none_iff.mp hg
        rw [show TABLE_LENGTH_BASE.length = 29 from rfl] at this
        omega
      | some lbase => exact ⟨lbase, rfl⟩
    obtain ⟨lbase, hlbase⟩ := hlbase
    have hdmiss : TABLE_DISTANCE_EXTRA_BITS.get? ds = none := by
      rw [List.get?_eq_getElem?]
      exact List.getElem?_eq_none
        (by rw [show TABLE_DISTANCE_EXTRA_BITS.length = 30 from rfl]; omega)
    have hback : dldpBackref dt s out d1 = .panic := by
      unfold dldpBackref
      dsimp only
      rw [hleb]
      dsimp only
      rw [hlex]
      dsimp only
      rw [hlbase]
      dsimp only
      rw [hds]
      dsimp only
      rw [hdmiss]
    rw [hback]

/-- C4 counterexample: in the shared loop, a literal/length tree yielding
symbol 286 (here with a one-bit code) makes `decode_length_distance_pairs`
panic on the out-of-range `TABLE_LENGTH_EXTRA_BITS[29]` lookup instead of
returning `Err(TreeError)` as the claim requires.  (The fixed-Huffman tree
of the source contains exactly such symbols 286/287, so
`decompress [0x1B, 0x03]` hits the same panic.) -/
theorem c4_symbol_286_panics :
    decodeLengthDistancePairs treeC4lit treeC4lit ⟨[0], 0, 0⟩ [] = BlockRes.panic := by
  decide!

/-- C4 witness: symbol 286 panics via the length tables; distance symbol 30
panics via the distance tables. -/
theorem c4_out_of_range_symbols_panic_witness :
    dldpLoop treeC4lit treeC4lit 1 [] ⟨[0], 0, 0⟩ = BlockRes.panic ∧
    dldpLoop treeC4len treeC4dist 1 [] ⟨[0], 0, 0⟩ = BlockRes.panic := by
  constructor
  · exact c4_out_of_range_symbols_panic.1 treeC4lit treeC4lit 0 [] ⟨[0], 0, 0⟩
      ⟨[0], 0, 1⟩ 286 (by decide) (by decide)
  · exact c4_out_of_range_symbols_panic.2 treeC4len treeC4dist 0 [] ⟨[0], 0, 0⟩
      ⟨[0], 0, 1⟩ ⟨[0], 0, 1⟩ ⟨[0], 0, 2⟩ 257 0 0 30
      (by decide) (by decide) (by decide) (by decide) (by decide) (by decide)

/-- The walk of `insert` preserves the arena invariant: starting below the
free index it ends below the free index, and all child links keep pointing
strictly upwards. -/
theorem insertLoop_inv :
    ∀ (nbits : Nat) (t : HuffmanTree) (current code : Nat)
      (t' : HuffmanTree) (cur' : Nat),
      HuffmanTree.insertLoop nbits t current code = some (t', cur') →
      TreeInvAux t current → current < t.next_free_node →
      TreeInvAux t' cur' ∧ cur' < t'.next_free_node := by
  intro nbits
  induction nbits with
  | zero =>
    intro t current code t' cur' heq hinv hcur
    rw [HuffmanTree.insertLoop] at heq
    cases heq
    exact ⟨hinv, hcur⟩
  | succ i ih =>
    intro t current code t' cur' heq hinv hcur
    rw [HuffmanTree.insertLoop] at heq
    cases hget : t.nodes.get? current with
    | none => rw [hget] at heq; exact absurd heq (by simp)
    | some node =>
      rw [hget] at heq
      dsimp only at heq
      obtain ⟨hlen, hpos, hch⟩ := hinv
      have hcur1024 : current < 1024 := by
        by_contra hcon
        rw [List.get?_eq_getElem?, List.getElem?_eq_none (by omega)] at hget
        exact absurd hget (by simp)
      have hch' : ∀ j nd c, t.nodes.get? j = some nd → Children nd c →
          j < c ∧ c < t.next_free_node ∧ c < 1024 := by
        intro j nd c h1 h2
        obtain ⟨a, b, cc⟩ := hch j nd c h1 h2
        refine ⟨a, b, ?_⟩
        rcases cc with h | h
        · exact h
        · omega
      have hInvAt : ∀ p, TreeInvAux t p :=
        fun p => ⟨hlen, hpos, fun j nd c h1 h2 =>
          let h3 := hch' j nd c h1 h2
          ⟨h3.1, h3.2.1, Or.inl h3.2.2⟩⟩
      have hgrow : ∀ (hupd : HuffmanNode),
          hupd.left = node.left ∨ hupd.left = some t.next_free_node →
          hupd.right = node.right ∨ hupd.right = some t.next_free_node →
          TreeInvAux
            ⟨t.nodes.set current hupd, t.next_free_node + 1⟩ t.next_free_node := by
        intro hupd hl hr
        refine ⟨by simpa using hlen, by dsimp only; omega, ?_⟩
        intro j nd c h1 h2
        by_cases hj : current = j
        · subst hj
          rw [show (⟨t.nodes.set current hupd, t.next_free_node + 1⟩ :
              HuffmanTree).nodes = t.nodes.set current hupd from rfl,
            List.get?_eq_getElem?, List.getElem?_set_eq_of_lt hupd (by omega)] at h1
          have hnd : nd = hupd := by injection h1 with h1'; exact h1'.symm
          subst hnd
          rcases h2 with h2 | h2
          · rcases hl with hl | hl
            · rw [hl] at h2
              obtain ⟨a, b, cc⟩ := hch' current node c hget (Or.inl h2)
              exact ⟨a, by dsimp only; omega, Or.inl cc⟩
            · rw [hl] at h2
              have hc : c = t.next_free_node := by injection h2 with h2'; omega
              subst hc
              exact ⟨hcur, by dsimp only; omega, Or.inr rfl⟩
          · rcases hr with hr | hr
            · rw [hr] at h2
              obtain ⟨a, b, cc⟩ := hch' current node c hget (Or.inr h2)
              exact ⟨a, by dsimp only; omega, Or.inl cc⟩
            · rw [hr] at h2
              have hc : c = t.next_free_node := by injection h2 with h2'; omega
              subst hc
              exact ⟨hcur, by dsimp only; omega, Or.inr rfl⟩
        · rw [show (⟨t.nodes.set current hupd, t.next_free_node + 1⟩ :
              HuffmanTree).nodes = t.nodes.set current hupd from rfl,
            List.get?_eq_getElem?, List.getElem?_set_ne hj,
            ← List.get?_eq_getElem?] at h1
          obtain ⟨a, b, cc⟩ := hch' j nd c h1 h2
          exact ⟨a, by dsimp only; omega, Or.inl cc⟩
      by_cases hbit : code &&& (1 <<< i) ≠ 0
      · rw [if_pos hbit] at heq
        cases hright : node.right with
        | some r =>
          rw [hright] at heq
          obtain ⟨-, hrn, -⟩ := hch' current node r hget (Or.inr hright)
          exact ih t r code t' cur' heq (hInvAt r) hrn
        | none =>
          rw [hright] at heq
          exact ih _ t.next_free_node code t' cur' heq
            (hgrow { node with right := some t.next_free_node }
              (Or.inl rfl) (Or.inr rfl))
            (by dsimp only; omega)
      · rw [if_neg hbit] at heq
        cases hleft : node.left with
        | some l =>
          rw [hleft] at heq
          obtain ⟨-, hln, -⟩ := hch' current node l hget (Or.inl hleft)
          exact ih t l code t' cur' heq (hInvAt l) hln
        | none =>
          rw [hleft] at heq
          exact ih _ t.next_free_node code t' cur' heq
            (hgrow { node with left := some t.next_free_node }
              (Or.inr rfl) (Or.inl rfl))
            (by dsimp only; omega)

/-- Function `insert` preserves arena well-formedness. -/
theorem insert_wf (t : HuffmanTree) (code n symbol : Nat) (t' : HuffmanTree)
    (heq : t.insert code n symbol = some t') (hwf : TreeWF t) : TreeWF t' := by
  obtain ⟨hlen, hpos, hch⟩ := hwf
  rw [HuffmanTree.insert] at heq
  cases hloop : HuffmanTree.insertLoop n t 0 code with
  | none => rw [hloop] at heq; exact absurd heq (by simp)
  | some p =>
    obtain ⟨t1, cur⟩ := p
    rw [hloop] at heq
    dsimp only at heq
    have hinv0 : TreeInvAux t 0 :=
      ⟨hlen, hpos, fun j nd c h1 h2 =>
        let h3 := hch j nd c h1 h2
        ⟨h3.1, h3.2.2, Or.inl h3.2.1⟩⟩
    obtain ⟨⟨hlen1, hpos1, hch1⟩, hcur1⟩ :=
      insertLoop_inv n t 0 code t1 cur hloop hinv0 hpos
    cases hget : t1.nodes.get? cur with
    | none => rw [hget] at heq; exact absurd heq (by simp)
    | some node =>
      rw [hget] at heq
      dsimp only at heq
      have hcur1024 : cur < 1024 := by
        by_contra hcon
        rw [List.get?_eq_getElem?, List.getElem?_eq_none (by omega)] at hget
        exact absurd hget (by simp)
      have ht' : t' = ⟨t1.nodes.set cur { node with symbol := some symbol },
          t1.next_free_node⟩ := by
        injection heq with h
        exact h.symm
      subst ht'
      refine ⟨by simpa using hlen1, by dsimp only; omega, ?_⟩
      intro j nd c h1 h2
      by_cases hj : cur = j
      · subst hj
        rw [show (⟨t1.nodes.set cur { node with symbol := some symbol },
            t1.next_free_node⟩ : HuffmanTree).nodes =
            t1.nodes.set cur { node with symbol := some symbol } from rfl,
          List.get?_eq_getElem?,
          List.getElem?_set_eq_of_lt _ (by omega)] at h1
        have hnd : nd = { node with symbol := some symbol } := by
          injection h1 with h1'
          exact h1'.symm
        subst hnd
        have h2' : Children node c := by
          rcases h2 with h2 | h2
          · exact Or.inl h2
          · exact Or.inr h2
        obtain ⟨a, b, cc⟩ := hch1 cur node c hget h2'
        refine ⟨a, ?_, by dsimp only; omega⟩
        rcases cc with cc | cc
        · exact cc
        · omega
      · rw [show (⟨t1.nodes.set cur { node with symbol := some symbol },
            t1.next_free_node⟩ : HuffmanTree).nodes =
            t1.nodes.set cur { node with symbol := some symbol } from rfl,
          List.get?_eq_getElem?, List.getElem?_set_ne hj,
          ← List.get?_eq_getElem?] at h1
        obtain ⟨a, b, cc⟩ := hch1 j nd c h1 h2
        refine ⟨a, ?_, by dsimp only; omega⟩
        rcases cc with cc | cc
        · exact cc
        · -- c = 0 would contradict j < c unless ... c = 0 pending: c = 0 → a : j < 0 absurd
          omega

/-- The empty arena is well formed. -/
theorem new_wf : TreeWF HuffmanTree.new := by
  refine ⟨by simp [HuffmanTree.new], by simp [HuffmanTree.new], ?_⟩
  intro i node c h1 h2
  rw [show HuffmanTree.new.nodes = List.replicate 1024 {} from rfl,
    List.get?_eq_getElem?, List.getElem?_replicate] at h1
  by_cases hi : i < 1024
  · rw [if_pos hi] at h1
    have hnode : node = ({} : HuffmanNode) := by
      injection h1 with h1'
      exact h1'.symm
    subst hnode
    rcases h2 with h2 | h2 <;> exact absurd h2 (by simp)
  · rw [if_neg hi] at h1
    exact absurd h1 (by simp)

/-- The insertion fold of `from_bitlengths` preserves well-formedness. -/
theorem buildLoop_wf :
    ∀ (l : List (Nat × Nat)) (nc : List Nat) (t t' : HuffmanTree),
      buildLoop l nc t = some t' → TreeWF t → TreeWF t' := by
  intro l
  induction l with
  | nil =>
    intro nc t t' heq hwf
    rw [buildLoop] at heq
    cases heq
    exact hwf
  | cons p rest ih =>
    obtain ⟨len, sym⟩ := p
    intro nc t t' heq hwf
    rw [buildLoop] at heq
    by_cases hlen : len ≠ 0
    · rw [if_pos hlen] at heq
      cases hins : t.insert (nc.getD len 0) len sym with
      | none => rw [hins] at heq; exact absurd heq (by simp)
      | some t2 =>
        rw [hins] at heq
        dsimp only at heq
        exact ih _ t2 t' heq (insert_wf t _ _ _ t2 hins hwf)
    · rw [if_neg hlen] at heq
      exact ih nc t t' heq hwf

/-- Every tree `from_bitlengths` returns is well formed. -/
theorem fromBitlengths_wf (bitlengths alphabet : List Nat) (t : HuffmanTree)
    (heq : fromBitlengths bitlengths alphabet = some t) : TreeWF t := by
  rw [fromBitlengths] at heq
  by_cases hemp : bitlengths.isEmpty
  · rw [if_pos hemp] at heq
    exact absurd heq (by simp)
  · rw [if_neg hemp] at heq
    dsimp only at heq
    by_cases hmax : 15 < bitlengths.foldr Nat.max 0
    · rw [if_pos hmax] at heq
      exact absurd heq (by simp)
    · rw [if_neg hmax] at heq
      exact buildLoop_wf _ _ _ t heq new_wf

/-- Reading `next_bit` either panics (cursor out of range) or returns a bit. -/
theorem Decoder.nextBit_shape (d : Decoder) :
    d.nextBit = .panic ∨ ∃ b d', d.nextBit = .ok (b, d') := by
  unfold Decoder.nextBit
  cases hg : d.data.get? d.byte with
  | none => exact Or.inl rfl
  | some byteval =>
    by_cases h8 : d.bit + 1 ≥ 8
    · exact Or.inr ⟨_, _, by dsimp only; rw [if_pos h8]⟩
    · exact Or.inr ⟨_, _, by dsimp only; rw [if_neg h8]⟩

/-- On a well-formed arena the decode walk cannot exhaust fuel
`1024 - current`: node indices increase strictly and stay below 1024. -/
theorem decodeSymbolLoop_no_div (t : HuffmanTree) (hwf : TreeWF t) :
    ∀ (fuel current : Nat) (d : Decoder), current < 1024 →
      1024 ≤ fuel + current → t.decodeSymbolLoop fuel current d ≠ .div := by
  obtain ⟨hlen, hpos, hch⟩ := hwf
  intro fuel
  induction fuel with
  | zero => intro current d h1 h2; omega
  | succ fuel ih =>
    intro current d h1 h2
    rw [HuffmanTree.decodeSymbolLoop]
    have hget : t.nodes.get? current = some (t.nodes.get ⟨current, by omega⟩) :=
      List.get?_eq_get (by omega)
    set node := t.nodes.get ⟨current, by omega⟩ with hnode
    rw [hget]
    dsimp only
    by_cases hkid : (node.right.isSome || node.left.isSome) = true
    · rw [if_pos hkid]
      rcases Decoder.nextBit_shape d with hb | ⟨b, d', hb⟩
      · rw [hb]
        simp
      · rw [hb]
        dsimp only
        by_cases hbz : b ≠ 0
        · rw [if_pos hbz]
          cases hr : node.right with
          | some r =>
            obtain ⟨ha, hb1024, -⟩ := hch current node r hget (Or.inr hr)
            exact ih r d' hb1024 (by omega)
          | none => simp
        · rw [if_neg hbz]
          cases hl : node.left with
          | some l =>
            obtain ⟨ha, hb1024, -⟩ := hch current node l hget (Or.inl hl)
            exact ih l d' hb1024 (by omega)
          | none => simp
    · rw [if_neg hkid]
      cases node.symbol <;> simp

/-- On a well-formed arena, with enough input bytes for the longest
possible walk, the decode walk returns a symbol or `TreeError`. -/
theorem decodeSymbolLoop_total (t : HuffmanTree) (hwf : TreeWF t) :
    ∀ (fuel current : Nat) (d : Decoder), current < 1024 →
      1024 ≤ fuel + current → d.byte + fuel ≤ d.data.length →
      (∃ s d', t.decodeSymbolLoop fuel current d = .ok (s, d')) ∨
        t.decodeSymbolLoop fuel current d = .err .TreeError := by
  obtain ⟨hlen, hpos, hch⟩ := hwf
  intro fuel
  induction fuel with
  | zero => intro current d h1 h2 h3; omega
  | succ fuel ih =>
    intro current d h1 h2 h3
    rw [HuffmanTree.decodeSymbolLoop]
    have hget : t.nodes.get? current = some (t.nodes.get ⟨current, by omega⟩) :=
      List.get?_eq_get (by omega)
    set node := t.nodes.get ⟨current, by omega⟩ with hnode
    rw [hget]
    dsimp only
    by_cases hkid : (node.right.isSome || node.left.isSome) = true
    · rw [if_pos hkid]
      obtain ⟨b, d', hb⟩ := Decoder.nextBit_ok_of_lt (d := d) (by omega)
      obtain ⟨hdata, hbyte⟩ := Decoder.nextBit_state hb
      have h3' : d'.byte + fuel ≤ d'.data.length := by rw [hdata]; omega
      rw [hb]
      dsimp only
      by_cases hbz : b ≠ 0
      · rw [if_pos hbz]
        cases hr : node.right with
        | some r =>
          obtain ⟨ha, hb1024, -⟩ := hch current node r hget (Or.inr hr)
          exact ih r d' hb1024 (by omega) h3'
        | none => exact Or.inr rfl
      · rw [if_neg hbz]
        cases hl : node.left with
        | some l =>
          obtain ⟨ha, hb1024, -⟩ := hch current node l hget (Or.inl hl)
          exact ih l d' hb1024 (by omega) h3'
        | none => exact Or.inr rfl
    · rw [if_neg hkid]
      cases node.symbol with
      | some s => exact Or.inl ⟨s, d, rfl⟩
      | none => exact Or.inr rfl

/-- C10: in every tree `from_bitlengths` builds, every stored child index is
strictly greater than its node's own arena index; hence a `decode_symbol`
walk visits strictly increasing indices and, with fuel 1024, never runs out
(it terminates within 1024 steps), returning a symbol or `TreeError` for any
input bits (when enough input bytes are available for the walk). -/
theorem c10_children_increase_walk_terminates :
    ∀ (bitlengths alphabet : List Nat) (t : HuffmanTree),
      fromBitlengths bitlengths alphabet = some t →
      (∀ i node c, t.nodes.get? i = some node →
          (node.left = some c ∨ node.right = some c) → i < c) ∧
      (∀ d, t.decodeSymbol d ≠ .div) ∧
      (∀ d, d.byte + 1024 ≤ d.data.length →
          (∃ s d', t.decodeSymbol d = .ok (s, d')) ∨
            t.decodeSymbol d = .err .TreeError) := by
  intro bitlengths alphabet t heq
  have hwf := fromBitlengths_wf bitlengths alphabet t heq
  refine ⟨?_, ?_, ?_⟩
  · intro i node c h1 h2
    exact (hwf.2.2 i node c h1 h2).1
  · intro d
    exact decodeSymbolLoop_no_div t hwf 1024 0 d (by omega) (by omega)
  · intro d hd
    exact decodeSymbolLoop_total t hwf 1024 0 d (by omega) (by omega) hd

/-- C10 witness: the two-leaf tree from bit lengths `[1, 1]`. -/
theorem c10_children_increase_walk_terminates_witness :
    ((fromBitlengths [1, 1] [0, 1]).getD HuffmanTree.new).decodeSymbol
      ⟨[0], 0, 0⟩ ≠ Res.div ∧
    ((fromBitlengths [1, 1] [0, 1]).getD HuffmanTree.new).decodeSymbol
      ⟨List.replicate 1024 0, 0, 0⟩ ≠ Res.div ∧
    ((fromBitlengths [1, 1] [0, 1]).getD HuffmanTree.new).decodeSymbol
      ⟨List.replicate 1024 0, 0, 0⟩ ≠ Res.panic := by
  have h := c10_children_increase_walk_terminates [1, 1] [0, 1]
    ((fromBitlengths [1, 1] [0, 1]).getD HuffmanTree.new) rfl
  refine ⟨h.2.1 ⟨[0], 0, 0⟩, h.2.1 ⟨List.replicate 1024 0, 0, 0⟩, ?_⟩
  rcases h.2.2 ⟨List.replicate 1024 0, 0, 0⟩ (by simp) with ⟨s, d', hok⟩ | herr
  · rw [hok]
    simp
  · rw [herr]
    simp
